import Mathlib

/-!
Verification of the sshpass repository (prompt-matching automaton, password
delivery, option parsing, pty setup and exit-code synthesis).

The repository holds two variants of the program:
* `trunk/main.c`   — the signal-hardened version;
* `sshpass/main.c` — the original naive version.

C strings are modelled as `List Char` (the characters before the NUL
terminator; none of the modelled strings contains a NUL byte), and reading
`s[i]` is modelled by `List.get?`, where `get? i = none` corresponds to
reading the terminating `'\0'`.
-/

namespace Sshpass

/-! ## The streaming matcher, `match` in trunk/main.c lines 468-483

```c
int match( const char *reference, const char *buffer, ssize_t bufsize, int state )
{
    int i;
    for( i=0;reference[state]!='\0' && i<bufsize; ++i ) {
        if( reference[state]==buffer[i] )
            state++;
        else {
            state=0;
            if( reference[state]==buffer[i] )
                state++;
        }
    }
    return state;
}
```
The buffer together with `bufsize` is modelled as the list of the `bufsize`
bytes read; `reference[state] != '\0'` is `state < reference.length`. -/
def match_c (reference : List Char) (buffer : List Char) (state : Nat) : Nat :=
  match buffer with
  | [] => state
  | b :: rest =>
    if state < reference.length then
      match_c reference rest
        (if reference[state]? = some b then state + 1
         else if reference[0]? = some b then 1 else 0)
    else state

/-- The `match` function of the naive version, sshpass/main.c lines 236-251.
Its body is character-for-character the same C code as the trunk version. -/
def matchNaive (reference : List Char) (buffer : List Char) (state : Nat) : Nat :=
  match buffer with
  | [] => state
  | b :: rest =>
    if state < reference.length then
      matchNaive reference rest
        (if reference[state]? = some b then state + 1
         else if reference[0]? = some b then 1 else 0)
    else state

/-- One step of the matcher on a single byte: the per-byte advance/reset rule
of the loop body, together with the loop guard `reference[state] != '\0'`
(a completed state is left unchanged). -/
def mstep (reference : List Char) (state : Nat) (b : Char) : Nat :=
  if state < reference.length then
    (if reference[state]? = some b then state + 1
     else if reference[0]? = some b then 1 else 0)
  else state

/-- Completion test used by `handleoutput`: `compare[state] == '\0'`,
i.e. reading the reference at index `state` falls on the NUL terminator. -/
def isComplete (reference : List Char) (state : Nat) : Bool :=
  reference[state]?.isNone

/-- Feeding a sequence of read chunks through `match`, threading the state,
exactly as `handleoutput` does with its `static int` state across calls. -/
def feedChunks (reference : List Char) (chunks : List (List Char)) (state : Nat) : Nat :=
  match chunks with
  | [] => state
  | c :: rest => feedChunks reference rest (match_c reference c state)

/-- States after each byte of an unsplit scan of `stream` from `state`. -/
def scanStates (reference : List Char) (stream : List Char) (state : Nat) : List Nat :=
  match stream with
  | [] => []
  | b :: rest =>
    mstep reference state b :: scanStates reference rest (mstep reference state b)

/-- States after each byte when the stream is fed chunk by chunk:
the logical concatenation of the per-chunk trajectories. -/
def chunkStates (reference : List Char) (chunks : List (List Char)) (state : Nat) : List Nat :=
  match chunks with
  | [] => []
  | c :: rest => scanStates reference c state ++ chunkStates reference rest (match_c reference c state)

/-! ### Basic matcher lemmas -/

theorem mstep_of_complete (r : List Char) (s : Nat) (b : Char) (h : r.length ≤ s) :
    mstep r s b = s := by
  unfold mstep
  rw [if_neg (by omega)]

theorem match_c_of_complete (r buf : List Char) (s : Nat) (h : r.length ≤ s) :
    match_c r buf s = s := by
  cases buf with
  | nil => rfl
  | cons b rest =>
    unfold match_c
    rw [if_neg (by omega)]

theorem foldl_mstep_of_complete (r buf : List Char) (s : Nat) (h : r.length ≤ s) :
    buf.foldl (mstep r) s = s := by
  induction buf with
  | nil => rfl
  | cons b rest ih =>
    simp only [List.foldl_cons, mstep_of_complete r s b h, ih]

theorem match_c_eq_foldl (r buf : List Char) (s : Nat) :
    match_c r buf s = buf.foldl (mstep r) s := by
  induction buf generalizing s with
  | nil => rfl
  | cons b rest ih =>
    unfold match_c
    by_cases h : s < r.length
    · rw [if_pos h, List.foldl_cons, ih]
      congr 1
      unfold mstep
      rw [if_pos h]
    · rw [if_neg h, List.foldl_cons, mstep_of_complete r s b (by omega),
        foldl_mstep_of_complete r rest s (by omega)]

theorem match_c_append (r a b : List Char) (s : Nat) :
    match_c r (a ++ b) s = match_c r b (match_c r a s) := by
  rw [match_c_eq_foldl, match_c_eq_foldl, match_c_eq_foldl, List.foldl_append]

theorem feedChunks_eq_match_join (r : List Char) (cs : List (List Char)) (s : Nat) :
    feedChunks r cs s = match_c r cs.flatten s := by
  induction cs generalizing s with
  | nil => rfl
  | cons c rest ih =>
    simp only [feedChunks, List.flatten_cons, match_c_append, ih]

theorem mstep_le (r : List Char) (s : Nat) (b : Char) (h : s ≤ r.length) :
    mstep r s b ≤ r.length := by
  unfold mstep
  by_cases hs : s < r.length
  · rw [if_pos hs]
    by_cases h1 : r[s]? = some b
    · rw [if_pos h1]; omega
    · rw [if_neg h1]
      by_cases h0 : r[0]? = some b
      · rw [if_pos h0]; omega
      · rw [if_neg h0]; omega
  · rw [if_neg hs]; omega

theorem foldl_mstep_le (r buf : List Char) (s : Nat) (h : s ≤ r.length) :
    buf.foldl (mstep r) s ≤ r.length := by
  induction buf generalizing s with
  | nil => exact h
  | cons b rest ih =>
    exact ih (mstep r s b) (mstep_le r s b h)

theorem match_c_le (r buf : List Char) (s : Nat) (h : s ≤ r.length) :
    match_c r buf s ≤ r.length := by
  rw [match_c_eq_foldl]
  exact foldl_mstep_le r buf s h

/-! ### State trajectories: chunked feeding versus an unsplit scan -/

theorem scanStates_append (r a b : List Char) (s : Nat) :
    scanStates r (a ++ b) s = scanStates r a s ++ scanStates r b (a.foldl (mstep r) s) := by
  induction a generalizing s with
  | nil => rfl
  | cons x xs ih =>
    simp only [List.cons_append, scanStates, List.foldl_cons]
    rw [show xs.append b = xs ++ b from rfl, ih]

theorem chunkStates_eq_scan_flatten (r : List Char) (cs : List (List Char)) (s : Nat) :
    chunkStates r cs s = scanStates r cs.flatten s := by
  induction cs generalizing s with
  | nil => rfl
  | cons c rest ih =>
    simp only [chunkStates, List.flatten_cons, scanStates_append, ih, match_c_eq_foldl]

theorem scanStates_length (r stream : List Char) (s : Nat) :
    (scanStates r stream s).length = stream.length := by
  induction stream generalizing s with
  | nil => rfl
  | cons b rest ih =>
    simp only [scanStates, List.length_cons, ih]

theorem scanStates_of_complete (r stream : List Char) (s : Nat) (h : r.length ≤ s) :
    scanStates r stream s = stream.map (fun _ => s) := by
  induction stream with
  | nil => rfl
  | cons b rest ih =>
    simp only [scanStates, mstep_of_complete r s b h, List.map_cons, ih]

/-- Once the scan reaches the complete state it stays there: the complete
state is absorbing, so it is entered at most once along any trajectory. -/
theorem getElem?_map_const {α β : Type} (l : List α) (x : β) (j : Nat) (hj : j < l.length) :
    (l.map (fun _ => x))[j]? = some x := by
  induction l generalizing j with
  | nil => simp at hj
  | cons a as ih =>
    cases j with
    | zero => simp
    | succ j' =>
      simp only [List.map_cons, List.getElem?_cons_succ]
      exact ih j' (by simp only [List.length_cons] at hj; omega)

theorem scanStates_absorbing (r stream : List Char) (s : Nat) (i j : Nat)
    (hij : i ≤ j) (hj : j < stream.length)
    (hi : (scanStates r stream s)[i]? = some r.length) :
    (scanStates r stream s)[j]? = some r.length := by
  induction stream generalizing s i j with
  | nil => simp at hj
  | cons b rest ih =>
    simp only [scanStates] at hi ⊢
    cases i with
    | zero =>
      simp only [List.getElem?_cons_zero, Option.some.injEq] at hi
      cases j with
      | zero => simp [hi]
      | succ j' =>
        simp only [List.getElem?_cons_succ]
        rw [hi, scanStates_of_complete r rest r.length (le_refl _)]
        exact getElem?_map_const rest r.length j'
          (by simp only [List.length_cons] at hj; omega)
    | succ i' =>
      cases j with
      | zero => omega
      | succ j' =>
        simp only [List.getElem?_cons_succ] at hi ⊢
        exact ih (mstep r s b) i' j' (by omega)
          (by simp only [List.length_cons] at hj; omega) hi

/-! ### Soundness: reaching the complete state requires an occurrence

The invariant: from a state `s ≤ length r` such that either the last `s`
consumed bytes are `r.take s`, or `r` already occurred in the consumed
bytes, each `mstep` preserves the same property. -/

/-- Invariant tying the matcher state to the bytes consumed so far. -/
def MatchInv (r : List Char) (consumed : List Char) (s : Nat) : Prop :=
  s ≤ r.length ∧ (r.take s <:+ consumed ∨ r <:+: consumed)

theorem matchInv_init (r : List Char) : MatchInv r [] 0 :=
  ⟨Nat.zero_le _, Or.inl (by simp)⟩

theorem matchInv_step (r : List Char) (c : List Char) (s : Nat) (b : Char)
    (h : MatchInv r c s) : MatchInv r (c ++ [b]) (mstep r s b) := by
  obtain ⟨hle, hcase⟩ := h
  rcases hcase with hsuf | hinf
  · by_cases hs : s < r.length
    · unfold mstep
      rw [if_pos hs]
      by_cases h1 : r[s]? = some b
      · rw [if_pos h1]
        refine ⟨by omega, Or.inl ?_⟩
        have htake : r.take (s + 1) = r.take s ++ [b] := by
          rw [List.take_succ, h1]
          rfl
        rw [htake]
        obtain ⟨t, ht⟩ := hsuf
        exact ⟨t, by rw [← ht, List.append_assoc]⟩
      · rw [if_neg h1]
        by_cases h0 : r[0]? = some b
        · rw [if_pos h0]
          refine ⟨?_, Or.inl ?_⟩
          · rcases r with _ | ⟨x, xs⟩
            · simp at h0
            · simp
          · have htake : r.take 1 = [b] := by
              rw [List.take_succ, List.take_zero, h0]
              rfl
            rw [htake]
            exact ⟨c, rfl⟩
        · rw [if_neg h0]
          exact ⟨Nat.zero_le _, Or.inl (by simp)⟩
    · have hs' : s = r.length := by omega
      rw [mstep_of_complete r s b (by omega)]
      refine ⟨hle, Or.inr ?_⟩
      obtain ⟨t, ht⟩ := hsuf
      rw [hs', List.take_length] at ht
      exact ⟨t, [b], by rw [← ht]⟩
  · obtain ⟨u, v, huv⟩ := hinf
    exact ⟨mstep_le r s b hle, Or.inr ⟨u, v ++ [b], by rw [← huv]; simp⟩⟩

theorem matchInv_foldl (r : List Char) (buf : List Char) (c : List Char) (s : Nat)
    (h : MatchInv r c s) : MatchInv r (c ++ buf) (buf.foldl (mstep r) s) := by
  induction buf generalizing c s with
  | nil => simpa using h
  | cons b rest ih =>
    have step := matchInv_step r c s b h
    have := ih (c ++ [b]) (mstep r s b) step
    simpa [List.append_assoc] using this

theorem match_c_complete_infix (r stream : List Char)
    (h : match_c r stream 0 = r.length) : r <:+: stream := by
  have inv := matchInv_foldl r stream [] 0 (matchInv_init r)
  rw [List.nil_append, ← match_c_eq_foldl, h] at inv
  obtain ⟨-, hcase⟩ := inv
  rcases hcase with hsuf | hinf
  · rw [List.take_length] at hsuf
    obtain ⟨t, ht⟩ := hsuf
    exact ⟨t, [], by simp [ht]⟩
  · exact hinf

/-! ## The exit-code enumeration, trunk/main.c lines 44-53 -/

def RETURN_NOERROR : Nat := 0
def RETURN_INVALID_ARGUMENTS : Nat := 1
def RETURN_CONFLICTING_ARGUMENTS : Nat := 2
def RETURN_RUNTIME_ERROR : Nat := 3
def RETURN_PARSE_ERRROR : Nat := 4
def RETURN_INCORRECT_PASSWORD : Nat := 5
def RETURN_HOST_KEY_UNKNOWN : Nat := 6
def RETURN_HOST_KEY_CHANGED : Nat := 7

/-! ## `handleoutput`, trunk/main.c lines 400-466

Its persistent (`static`) variables `prevmatch`, `state1`, `state2`,
`state3` form the per-run state; the chunk is the `numread` bytes read from
the master pty.  A failed read (`numread <= 0`) behaves exactly like an
empty chunk.  `compare1` is the configurable prompt phrase (`args.pwprompt`
or the built-in `PASSWORD_PROMPT`); the two host-key phrases are the string
literals below. -/

def compare2 : List Char := "The authenticity of host ".toList

def compare3 : List Char := "differs from the key for the IP address".toList

structure HandleState where
  prevmatch : Bool
  state1 : Nat
  state2 : Nat
  state3 : Nat
deriving DecidableEq

/-- Initial values of `handleoutput`'s static state variables. -/
def initHS : HandleState := ⟨false, 0, 0, 0⟩

/-- Result of one `handleoutput` call: the returned code, whether
`write_pass` was invoked during the call, and the updated static state. -/
structure HandleResult where
  ret : Nat
  wrote : Bool
  st : HandleState
deriving DecidableEq

/-- The host-key checks guarded by `if( ret==0 )` in `handleoutput`:
`state2` is advanced first; only if the unknown-host phrase is not complete
is `state3` advanced. -/
def hostKeyChecks (chunk : List Char) (s : HandleState) (wrote : Bool) : HandleResult :=
  let st2 := match_c compare2 chunk s.state2
  if isComplete compare2 st2 then
    { ret := RETURN_HOST_KEY_UNKNOWN, wrote := wrote, st := { s with state2 := st2 } }
  else
    let st3 := match_c compare3 chunk s.state3
    if isComplete compare3 st3 then
      { ret := RETURN_HOST_KEY_CHANGED, wrote := wrote,
        st := { s with state2 := st2, state3 := st3 } }
    else
      { ret := 0, wrote := wrote, st := { s with state2 := st2, state3 := st3 } }

/-- One `handleoutput` invocation on one read chunk. -/
def handleoutput (c1 : List Char) (chunk : List Char) (s : HandleState) : HandleResult :=
  let st1 := match_c c1 chunk s.state1
  if isComplete c1 st1 then
    if s.prevmatch = false then
      hostKeyChecks chunk { s with state1 := 0, prevmatch := true } true
    else
      { ret := RETURN_INCORRECT_PASSWORD, wrote := false, st := { s with state1 := st1 } }
  else
    hostKeyChecks chunk { s with state1 := st1 } false

/-- Total number of `write_pass` invocations over a sequence of
`handleoutput` calls on successive read batches. -/
def runWrites (c1 : List Char) (chunks : List (List Char)) (s : HandleState) : Nat :=
  match chunks with
  | [] => 0
  | c :: rest =>
    let r := handleoutput c1 c s
    (if r.wrote then 1 else 0) + runWrites c1 rest r.st

/-! ## `write_pass_fd`, trunk/main.c lines 514-533 (identical in
sshpass/main.c lines 280-299, with plain `write` for `reliable_write`)

The source descriptor is modelled by the list of bytes it will deliver;
each `read` returns the next at-most-40 available bytes and `0` at
end-of-input.  The returned list is the sequence of bytes written to the
destination descriptor (which accepts every byte). -/

def wpfLoop (src : List Char) : List Char :=
  match src with
  | [] => []
  | x :: xs =>
    let chunk := (x :: xs).take 40
    if chunk.all (fun b => b ≠ '\n') then
      chunk ++ wpfLoop ((x :: xs).drop 40)
    else
      chunk.takeWhile (fun b => b ≠ '\n')
termination_by src.length
decreasing_by
  simp only [List.length_drop, List.length_cons]
  omega

/-- `write_pass_fd`: the copy loop followed by the final
`reliable_write( dstfd, "\n", 1 )`. -/
def write_pass_fd (src : List Char) : List Char :=
  wpfLoop src ++ ['\n']

/-! ## Option parsing and `main`, trunk/main.c lines 103-210

`getopt` (libc, outside the repository) turns the raw argv into a sequence
of recognised option events, so `parse_options` is embedded as a fold over
that event list.  `optBad` stands for getopt returning `?` or `:`.  The
`SSHPASS` environment variable is the `env` parameter.  The `-V` case calls
`exit(0)` inside the loop, modelled by returning `none`. -/

inductive Opt
  | optF (arg : String)
  | optD (arg : String)
  | optP (arg : String)
  | optPrompt (arg : String)
  | optVerbose
  | optE
  | optH
  | optVersion
  | optBad
deriving DecidableEq

inductive PwType
  | stdin | file | fd | pass
deriving DecidableEq

/-- The global `args` struct (the fields written by `parse_options`).
The `pwsrc` union is split into one field per variant; only the variant
selected by `pwtype` is meaningful, as in the C union. -/
structure Args where
  pwtype : PwType
  filename : String
  fdArg : String
  pwprompt : Option String
  verbose : Nat
  orig_password : Option String
deriving DecidableEq

/-- `args` after the defaults at the top of `parse_options`
(`args.pwtype=PWT_STDIN; args.pwsrc.fd=0;`). -/
def argsInit : Args :=
  { pwtype := .stdin, filename := "", fdArg := "0", pwprompt := none,
    verbose := 0, orig_password := none }

/-- The `VIRGIN_PWTYPE` macro: if a non-default password source is already
selected, record the conflicting-arguments error (it keeps running the rest
of the `case` body). -/
def virginPwtype (a : Args) (error : Int) : Int :=
  if a.pwtype ≠ PwType.stdin then (RETURN_CONFLICTING_ARGUMENTS : Int) else error

/-- The getopt loop of `parse_options`: process events while
`error == -1`; `none` models the `exit(0)` of the `-V` case. -/
def parseLoop (env : Option String) (a : Args) (error : Int) :
    List Opt → Option (Args × Int)
  | [] => some (a, error)
  | o :: rest =>
    if error ≠ -1 then some (a, error)
    else
      match o with
      | .optF s => parseLoop env { a with pwtype := .file, filename := s } (virginPwtype a error) rest
      | .optD s => parseLoop env { a with pwtype := .fd, fdArg := s } (virginPwtype a error) rest
      | .optP s => parseLoop env { a with pwtype := .pass, orig_password := some s } (virginPwtype a error) rest
      | .optPrompt s => parseLoop env { a with pwprompt := some s } error rest
      | .optVerbose => parseLoop env { a with verbose := a.verbose + 1 } error rest
      | .optE =>
        let e1 := virginPwtype a error
        let a1 := { a with pwtype := PwType.pass, orig_password := env }
        let e2 := if env = none then (RETURN_INVALID_ARGUMENTS : Int) else e1
        parseLoop env a1 e2 rest
      | .optH => parseLoop env a (RETURN_NOERROR : Int) rest
      | .optBad => parseLoop env a (RETURN_INVALID_ARGUMENTS : Int) rest
      | .optVersion => none

/-- What `main` does with the parse result: exit with a code, or go on to
call `runprogram` (which forks the child).  `hasCmd` abstracts
`argc - opt_offset >= 1` (a command to run was given after the options). -/
inductive MainOut
  | exit (code : Int)
  | runs (a : Args)
deriving DecidableEq

/-- `main` up to the call of `runprogram`: `parse_options` returns
`-(error+1)` when an error was recorded and `optind` (some value `>= 1`)
otherwise, and `main` exits with `-(opt_offset+1)` when the offset is
negative. -/
def mainModel (env : Option String) (opts : List Opt) (hasCmd : Bool) : MainOut :=
  match parseLoop env argsInit (-1) opts with
  | none => .exit 0
  | some (a, error) =>
    let opt_offset : Int := if 0 ≤ error then -(error + 1) else 1
    if opt_offset < 0 then .exit (-(opt_offset + 1))
    else if hasCmd = false then .exit 0
    else .runs a

/-- Number of password-source options (`-f`, `-d`, `-p`, `-e`) on the
command line. -/
def numPwSources (opts : List Opt) : Nat :=
  match opts with
  | [] => 0
  | o :: rest =>
    (match o with
     | .optF _ => 1
     | .optD _ => 1
     | .optP _ => 1
     | .optE => 1
     | _ => 0) + numPwSources rest

/-- Password-source options whose `case` body cannot overwrite the
conflict error: `-f`, `-d` and `-p` (unlike `-e` with `SSHPASS` unset,
which overwrites `error` with `RETURN_INVALID_ARGUMENTS`). -/
def isFdpOpt : Opt → Bool
  | .optF _ => true
  | .optD _ => true
  | .optP _ => true
  | _ => false

/-! ## `runprogram` before the fork, trunk/main.c lines 226-246 and
sshpass/main.c lines 145-163

The three pty calls (`posix_openpt`/`getpt`, `grantpt`, `unlockpt`) are
modelled by the booleans saying whether each succeeds; the function either
returns early with an error code or reaches the `fork()` call. -/

inductive RunStage
  | earlyReturn (code : Nat)
  | reachedFork
deriving DecidableEq

/-- Pre-fork sequence of the signal-hardened `runprogram`: each failing
pty call returns `RETURN_RUNTIME_ERROR` at once. -/
def runprogramPre (openpt_ok grantpt_ok unlockpt_ok : Bool) : RunStage :=
  if openpt_ok = false then .earlyReturn RETURN_RUNTIME_ERROR
  else if grantpt_ok = false then .earlyReturn RETURN_RUNTIME_ERROR
  else if unlockpt_ok = false then .earlyReturn RETURN_RUNTIME_ERROR
  else .reachedFork

/-- Pre-fork sequence of the naive `runprogram` (sshpass/main.c): each
failing pty call does `return 1`. -/
def runprogramPreNaive (getpt_ok grantpt_ok unlockpt_ok : Bool) : RunStage :=
  if getpt_ok = false then .earlyReturn 1
  else if grantpt_ok = false then .earlyReturn 1
  else if unlockpt_ok = false then .earlyReturn 1
  else .reachedFork

/-! ## Exit-code synthesis at the end of `runprogram`, trunk/main.c 390-398

```c
    if( terminate>0 )
        return terminate;
    else if( WIFEXITED( status ) )
        return WEXITSTATUS(status);
    else
        return 255;
```
The collected wait status is modelled by whether the child exited normally
(with which status) or was killed by a signal; the loop only ends once one
of the two holds. -/

inductive WaitStatus
  | exited (code : Nat)
  | signaled (sig : Nat)
deriving DecidableEq

def exitSynthesis (terminate : Int) (status : WaitStatus) : Int :=
  if 0 < terminate then terminate
  else
    match status with
    | .exited c => (c : Int)
    | .signaled _ => 255

/-! ## Claim theorems -/

/-- Claim C10: the `match` function of the naive version and the `match`
function of the signal-hardened version compute the same function — for
every reference phrase, buffer (with its size) and initial state the two
return equal states. -/
theorem match_versions_equal (r buf : List Char) (s : Nat) :
    match_c r buf s = matchNaive r buf s := by
  induction buf generalizing s with
  | nil => rfl
  | cons b rest ih =>
    unfold match_c matchNaive
    by_cases h : s < r.length
    · rw [if_pos h, if_pos h, ih]
    · rw [if_neg h, if_neg h]

/-- Claim C7: the matcher-state range invariant is preserved by every feed —
from any initial state with `0 ≤ state ≤ length reference`, the state
returned by `match` again satisfies `0 ≤ state ≤ length reference`. -/
theorem match_state_range (r buf : List Char) (s : Nat) (h : s ≤ r.length) :
    0 ≤ match_c r buf s ∧ match_c r buf s ≤ r.length :=
  ⟨Nat.zero_le _, match_c_le r buf s h⟩

/-- Witness for C7 at a concrete phrase, chunk and state. -/
theorem match_state_range_witness :
    (0 : Nat) ≤ ("Password: ".toList).length ∧
    0 ≤ match_c ("Password: ".toList) ("xPassword".toList) 0 ∧
    match_c ("Password: ".toList) ("xPassword".toList) 0 ≤ ("Password: ".toList).length :=
  ⟨by decide, match_state_range ("Password: ".toList) ("xPassword".toList) 0 (by decide)⟩

/-- Claim C4: the matcher processes a chunk byte by byte (fold of the
single-byte rule `mstep`); for a byte arriving in a non-complete state the
rule advances on a match of `reference[state]` and otherwise resets to 0
and re-tests the same byte against `reference[0]`; a complete state stops
all further advancing; and (for in-range states) completion holds exactly
when `state = length reference`. -/
theorem match_per_byte_rule (r buf : List Char) (s : Nat) (b : Char) :
    match_c r buf s = buf.foldl (mstep r) s ∧
    (s < r.length → mstep r s b =
      (if r[s]? = some b then s + 1 else if r[0]? = some b then 1 else 0)) ∧
    (r.length ≤ s → match_c r buf s = s) ∧
    (s ≤ r.length → (isComplete r s = true ↔ s = r.length)) := by
  refine ⟨match_c_eq_foldl r buf s, ?_, match_c_of_complete r buf s, ?_⟩
  · intro hs
    unfold mstep
    rw [if_pos hs]
  · intro hs
    have : isComplete r s = true ↔ r.length ≤ s := by
      simp [isComplete, Option.isNone_iff_eq_none, List.getElem?_eq_none_iff]
    rw [this]
    omega

/-- Witness for C4 at concrete inputs: one instantiation in a running
state, one in a complete state. -/
theorem match_per_byte_rule_witness :
    (match_c ("ab".toList) ("b".toList) 1 = ("b".toList).foldl (mstep ("ab".toList)) 1 ∧
      mstep ("ab".toList) 1 'b' =
        (if ("ab".toList)[1]? = some 'b' then 2 else if ("ab".toList)[0]? = some 'b' then 1 else 0)) ∧
    (match_c ("ab".toList) ("xy".toList) 2 = 2 ∧
      (isComplete ("ab".toList) 2 = true ↔ 2 = ("ab".toList).length)) := by
  have h1 := match_per_byte_rule ("ab".toList) ("b".toList) 1 'b'
  have h2 := match_per_byte_rule ("ab".toList) ("xy".toList) 2 'z'
  exact ⟨⟨h1.1, h1.2.1 (by decide)⟩, ⟨h2.2.2.1 (by decide), h2.2.2.2 (by decide)⟩⟩

/-- Claim C6: for every phrase, feeding a stream (in any chunking) that
never contains the phrase as a contiguous substring keeps the state
strictly below the phrase length; equivalently, reaching
`state = length phrase` implies the phrase occurred contiguously in the
bytes fed so far. -/
theorem match_soundness (r : List Char) (cs : List (List Char)) :
    (¬ r <:+: cs.flatten → feedChunks r cs 0 < r.length) ∧
    (feedChunks r cs 0 = r.length → r <:+: cs.flatten) := by
  constructor
  · intro hninf
    have hle : feedChunks r cs 0 ≤ r.length := by
      rw [feedChunks_eq_match_join]
      exact match_c_le r cs.flatten 0 (Nat.zero_le _)
    rcases Nat.lt_or_ge (feedChunks r cs 0) r.length with h | h
    · exact h
    · exfalso
      apply hninf
      rw [feedChunks_eq_match_join] at h hle
      exact match_c_complete_infix r cs.flatten (by omega)
  · intro hc
    rw [feedChunks_eq_match_join] at hc
    exact match_c_complete_infix r cs.flatten hc

/-- Witness for C6: a stream avoiding the phrase stays strictly below
completion, and a completing feed exhibits the phrase as a substring. -/
theorem match_soundness_witness :
    (¬ ("ab".toList) <:+: ([("aa".toList), ("ca".toList)]).flatten ∧
      feedChunks ("ab".toList) [("aa".toList), ("ca".toList)] 0 < ("ab".toList).length) ∧
    (feedChunks ("ab".toList) [("a".toList), ("b".toList)] 0 = ("ab".toList).length ∧
      ("ab".toList) <:+: ([("a".toList), ("b".toList)]).flatten) := by
  have h1 := (match_soundness ("ab".toList) [("aa".toList), ("ca".toList)]).1 (by decide)
  have h2 := (match_soundness ("ab".toList) [("a".toList), ("b".toList)]).2 (by decide)
  exact ⟨⟨by decide, h1⟩, ⟨by decide, h2⟩⟩

/-- Claim C9 counterexample: in the naive version (sshpass/main.c), a
failed pty allocation returns exit code 1, not the RuntimeError code 3
stated by the claim. -/
theorem pty_failure_naive_code_cex :
    runprogramPreNaive false true true = .earlyReturn 1 ∧
    (1 : Nat) ≠ RETURN_RUNTIME_ERROR := by
  exact ⟨rfl, by decide⟩

/-- Claim C9 (amended): if pseudo-terminal allocation, permission grant or
unlock fails, both versions return an error before the fork is reached —
the signal-hardened version with `RETURN_RUNTIME_ERROR` (exit code 3), the
naive version with exit code 1 — and no child is created on these paths. -/
theorem pty_failure_before_fork (o g u : Bool)
    (h : o = false ∨ g = false ∨ u = false) :
    runprogramPre o g u = .earlyReturn RETURN_RUNTIME_ERROR ∧
    runprogramPre o g u ≠ .reachedFork ∧
    runprogramPreNaive o g u = .earlyReturn 1 ∧
    runprogramPreNaive o g u ≠ .reachedFork := by
  cases o <;> cases g <;> cases u <;> revert h <;> decide

/-- Witness for C9 at a concrete failing pty allocation. -/
theorem pty_failure_before_fork_witness :
    runprogramPre false true true = .earlyReturn RETURN_RUNTIME_ERROR ∧
    runprogramPre false true true ≠ .reachedFork ∧
    runprogramPreNaive false true true = .earlyReturn 1 ∧
    runprogramPreNaive false true true ≠ .reachedFork :=
  pty_failure_before_fork false true true (Or.inl rfl)

/-! ### Lemmas about `handleoutput` for Claim C1 -/

theorem hostKeyChecks_spec (chunk : List Char) (s : HandleState) (w : Bool) :
    (hostKeyChecks chunk s w).wrote = w ∧
    (hostKeyChecks chunk s w).st.prevmatch = s.prevmatch ∧
    (hostKeyChecks chunk s w).st.state1 = s.state1 := by
  unfold hostKeyChecks
  by_cases h2 : isComplete compare2 (match_c compare2 chunk s.state2) = true
  · simp [h2]
  · by_cases h3 : isComplete compare3 (match_c compare3 chunk s.state3) = true
    · simp [h2, h3]
    · simp [h2, h3]

theorem handleoutput_prevmatch_mono (c1 chunk : List Char) (s : HandleState)
    (h : s.prevmatch = true) : (handleoutput c1 chunk s).st.prevmatch = true := by
  unfold handleoutput
  by_cases hc : isComplete c1 (match_c c1 chunk s.state1) = true
  · simp [hc, h]
  · simp only [hc, if_false, Bool.false_eq_true]
    rw [(hostKeyChecks_spec chunk _ false).2.1]
    exact h

theorem handleoutput_wrote_true (c1 chunk : List Char) (s : HandleState)
    (h : (handleoutput c1 chunk s).wrote = true) :
    s.prevmatch = false ∧ (handleoutput c1 chunk s).st.prevmatch = true := by
  unfold handleoutput at h ⊢
  by_cases hc : isComplete c1 (match_c c1 chunk s.state1) = true
  · by_cases hp : s.prevmatch = false
    · refine ⟨hp, ?_⟩
      simp only [hc, hp, if_true, if_pos]
      rw [(hostKeyChecks_spec chunk _ true).2.1]
    · exfalso
      simp [hc, hp] at h
  · exfalso
    simp only [hc, if_false, Bool.false_eq_true] at h
    rw [(hostKeyChecks_spec chunk _ false).1] at h
    exact Bool.false_ne_true h

theorem runWrites_of_prevmatch (c1 : List Char) (chunks : List (List Char)) (s : HandleState)
    (h : s.prevmatch = true) : runWrites c1 chunks s = 0 := by
  induction chunks generalizing s with
  | nil => rfl
  | cons c rest ih =>
    simp only [runWrites]
    have hw : (handleoutput c1 c s).wrote = false := by
      rcases Bool.eq_false_or_eq_true (handleoutput c1 c s).wrote with hh | hh
      · rw [(handleoutput_wrote_true c1 c s hh).1] at h
        exact absurd h Bool.false_ne_true
      · exact hh
    rw [hw, ih (handleoutput c1 c s).st (handleoutput_prevmatch_mono c1 c s h)]
    simp

theorem runWrites_le_one (c1 : List Char) (chunks : List (List Char)) (s : HandleState) :
    runWrites c1 chunks s ≤ 1 := by
  induction chunks generalizing s with
  | nil => exact Nat.zero_le 1
  | cons c rest ih =>
    simp only [runWrites]
    rcases Bool.eq_false_or_eq_true (handleoutput c1 c s).wrote with hw | hw
    · rw [hw, runWrites_of_prevmatch c1 rest _ (handleoutput_wrote_true c1 c s hw).2]
      simp
    · rw [hw]
      simpa using ih (handleoutput c1 c s).st

/-- Claim C1: the password is delivered at most once per run of
`handleoutput` invocations on successive read batches; the first full
match of the prompt phrase calls `write_pass` and sets `prevmatch`; any
full match of the prompt phrase seen with `prevmatch` already set yields
`RETURN_INCORRECT_PASSWORD`, triggers no write, and skips the two
host-key checks for that batch. -/
theorem handle_password_once (c1 : List Char) (chunks : List (List Char)) :
    runWrites c1 chunks initHS ≤ 1 ∧
    (∀ (s : HandleState) (chunk : List Char),
      s.prevmatch = true →
      isComplete c1 (match_c c1 chunk s.state1) = true →
      (handleoutput c1 chunk s).ret = RETURN_INCORRECT_PASSWORD ∧
      (handleoutput c1 chunk s).wrote = false ∧
      (handleoutput c1 chunk s).st.state2 = s.state2 ∧
      (handleoutput c1 chunk s).st.state3 = s.state3) ∧
    (∀ (s : HandleState) (chunk : List Char),
      s.prevmatch = false →
      isComplete c1 (match_c c1 chunk s.state1) = true →
      (handleoutput c1 chunk s).wrote = true ∧
      (handleoutput c1 chunk s).st.prevmatch = true) := by
  refine ⟨runWrites_le_one c1 chunks initHS, ?_, ?_⟩
  · intro s chunk hp hcomp
    have hp' : ¬ s.prevmatch = false := by simp [hp]
    unfold handleoutput
    simp [hcomp, hp']
  · intro s chunk hp hcomp
    unfold handleoutput
    simp only [hcomp, hp, if_true, if_pos]
    exact ⟨(hostKeyChecks_spec chunk _ true).1, (hostKeyChecks_spec chunk _ true).2.1⟩

/-- Witness for C1: with the prompt already answered once, a second full
prompt match returns the incorrect-password code without a second write. -/
theorem handle_password_once_witness :
    ((⟨true, 0, 0, 0⟩ : HandleState).prevmatch = true ∧
      isComplete ("Password: ".toList)
        (match_c ("Password: ".toList) ("Password: ".toList)
          (⟨true, 0, 0, 0⟩ : HandleState).state1) = true) ∧
    (handleoutput ("Password: ".toList) ("Password: ".toList)
      (⟨true, 0, 0, 0⟩ : HandleState)).ret = RETURN_INCORRECT_PASSWORD ∧
    (handleoutput ("Password: ".toList) ("Password: ".toList)
      (⟨true, 0, 0, 0⟩ : HandleState)).wrote = false := by
  have h := (handle_password_once ("Password: ".toList) []).2.1
    ⟨true, 0, 0, 0⟩ ("Password: ".toList) rfl (by decide)
  exact ⟨⟨rfl, by decide⟩, h.1, h.2.1⟩

/-- Claim C2: the exit code is the terminal outcome code verbatim when one
was produced (the enumeration fixes 0 no-error, 1 invalid arguments,
2 conflicting arguments, 3 runtime error, 4 parse error, 5 incorrect
password, 6 host key unknown, 7 host key changed; `main` hands an
option-parsing outcome through unchanged, and a positive `terminate` is
returned as is); otherwise the child's own exit status is returned when it
exited normally, and 255 when it was killed by a signal. -/
theorem exit_code_contract :
    (RETURN_NOERROR = 0 ∧ RETURN_INVALID_ARGUMENTS = 1 ∧
      RETURN_CONFLICTING_ARGUMENTS = 2 ∧ RETURN_RUNTIME_ERROR = 3 ∧
      RETURN_PARSE_ERRROR = 4 ∧ RETURN_INCORRECT_PASSWORD = 5 ∧
      RETURN_HOST_KEY_UNKNOWN = 6 ∧ RETURN_HOST_KEY_CHANGED = 7) ∧
    (∀ (t : Int) (st : WaitStatus), 0 < t → exitSynthesis t st = t) ∧
    (∀ (t : Int) (c : Nat), t ≤ 0 → exitSynthesis t (.exited c) = (c : Int)) ∧
    (∀ (t : Int) (sig : Nat), t ≤ 0 → exitSynthesis t (.signaled sig) = 255) ∧
    (∀ (env : Option String) (opts : List Opt) (hasCmd : Bool) (a : Args) (error : Int),
      parseLoop env argsInit (-1) opts = some (a, error) → 0 ≤ error →
      mainModel env opts hasCmd = .exit error) := by
  refine ⟨⟨rfl, rfl, rfl, rfl, rfl, rfl, rfl, rfl⟩, ?_, ?_, ?_, ?_⟩
  · intro t st ht
    unfold exitSynthesis
    rw [if_pos ht]
  · intro t c ht
    unfold exitSynthesis
    rw [if_neg (by omega)]
  · intro t sig ht
    unfold exitSynthesis
    rw [if_neg (by omega)]
  · intro env opts hasCmd a error hp he
    unfold mainModel
    rw [hp]
    simp only [if_pos he]
    rw [if_pos (by omega : (-(error + 1) : Int) < 0)]
    congr 1
    omega

/-- Witness for C2 at concrete outcomes: a produced terminal code, a
normally exited child, a signal-killed child, and a parse outcome handed
through `main`. -/
theorem exit_code_contract_witness :
    ((0 : Int) < 5 ∧ exitSynthesis 5 (.exited 0) = 5) ∧
    ((0 : Int) ≤ 0 ∧ exitSynthesis 0 (.exited 9) = (9 : Int)) ∧
    exitSynthesis (-1) (.signaled 15) = 255 ∧
    (parseLoop none argsInit (-1) [Opt.optH] = some (argsInit, 0) ∧
      mainModel none [Opt.optH] true = .exit 0) := by
  have h2 := exit_code_contract.2.1 5 (.exited 0) (by decide)
  have h3 := exit_code_contract.2.2.1 0 9 (by decide)
  have h4 := exit_code_contract.2.2.2.1 (-1) 15 (by decide)
  have h5 := exit_code_contract.2.2.2.2 none [Opt.optH] true argsInit 0 (by decide) (by decide)
  exact ⟨⟨by decide, h2⟩, ⟨by decide, by simpa using h3⟩, h4, ⟨by decide, h5⟩⟩

/-! ### Claim C3 -/

/-- A stream that contains the host-key-changed phrase but on which the
matcher never completes: 33 bytes that look like the start of the phrase,
followed by a full occurrence of the phrase. -/
def badStream : List Char :=
  ("differs from the key for the IP a" ++ "differs from the key for the IP address").toList

/-- Claim C3 counterexample: `badStream` contains the target phrase
`compare3`, yet scanning it (unsplit, from state 0) never reaches the
complete state — the matcher does not reach `isComplete` exactly once. -/
theorem match_misses_contained_phrase :
    compare3 <:+: badStream ∧
    compare3.length ∉ scanStates compare3 badStream 0 ∧
    match_c compare3 badStream 0 ≠ compare3.length := by
  refine ⟨⟨"differs from the key for the IP a".toList, [], by decide⟩, by decide, by decide⟩

/-- Claim C3 (amended): for every phrase and every partition of a byte
stream into chunks, feeding the chunks through `match` from state 0 passes
through exactly the same state trajectory as scanning the unsplit stream —
so completion is reached at the same logical byte positions — and the
complete state is absorbing, so it is entered at most once.  (Containing
the phrase does not guarantee that completion is reached, as
`match_misses_contained_phrase` shows.) -/
theorem match_chunking_trajectory (r : List Char) (cs : List (List Char)) :
    chunkStates r cs 0 = scanStates r cs.flatten 0 ∧
    (∀ (stream : List Char) (i j : Nat), i ≤ j → j < stream.length →
      (scanStates r stream 0)[i]? = some r.length →
      (scanStates r stream 0)[j]? = some r.length) :=
  ⟨chunkStates_eq_scan_flatten r cs 0,
   fun stream i j hij hj hi => scanStates_absorbing r stream 0 i j hij hj hi⟩

/-- Witness for C3 (amended) at a concrete phrase, chunking and stream. -/
theorem match_chunking_trajectory_witness :
    chunkStates ("ab".toList) [("a".toList), ("b".toList)] 0 =
      scanStates ("ab".toList) ([("a".toList), ("b".toList)]).flatten 0 ∧
    (scanStates ("ab".toList) ("abb".toList) 0)[1]? = some ("ab".toList).length ∧
    (scanStates ("ab".toList) ("abb".toList) 0)[2]? = some ("ab".toList).length := by
  have h := (match_chunking_trajectory ("ab".toList) [("a".toList), ("b".toList)]).2
    ("abb".toList) 1 2 (by decide) (by decide) (by decide)
  exact ⟨(match_chunking_trajectory ("ab".toList) [("a".toList), ("b".toList)]).1,
    by decide, h⟩

/-! ### Lemmas about `takeWhile` for Claim C5 -/

theorem takeWhile_take_all (p : Char → Bool) (l : List Char) (n : Nat)
    (h : (l.take n).all p = true) :
    l.takeWhile p = l.take n ++ (l.drop n).takeWhile p := by
  induction l generalizing n with
  | nil => simp
  | cons x xs ih =>
    cases n with
    | zero => simp
    | succ m =>
      simp only [List.take_succ_cons, List.all_cons, Bool.and_eq_true] at h
      simp only [List.take_succ_cons, List.drop_succ_cons, List.cons_append]
      rw [List.takeWhile_cons_of_pos h.1, ih m h.2]

theorem takeWhile_take_not_all (p : Char → Bool) (l : List Char) (n : Nat)
    (h : ¬ (l.take n).all p = true) :
    l.takeWhile p = (l.take n).takeWhile p := by
  induction l generalizing n with
  | nil => simp at h
  | cons x xs ih =>
    cases n with
    | zero => simp at h
    | succ m =>
      simp only [List.take_succ_cons, List.all_cons, Bool.and_eq_true] at h
      by_cases hpx : p x = true
      · rw [List.take_succ_cons, List.takeWhile_cons_of_pos hpx,
          List.takeWhile_cons_of_pos hpx, ih m (fun hall => h ⟨hpx, hall⟩)]
      · rw [List.take_succ_cons, List.takeWhile_cons_of_neg hpx,
          List.takeWhile_cons_of_neg hpx]

theorem takeWhile_all_self (p : Char → Bool) (l : List Char) (h : l.all p = true) :
    l.takeWhile p = l := by
  induction l with
  | nil => rfl
  | cons x xs ih =>
    simp only [List.all_cons, Bool.and_eq_true] at h
    rw [List.takeWhile_cons_of_pos h.1, ih h.2]

theorem takeWhile_all_append (p : Char → Bool) (l1 l2 : List Char)
    (h : l1.all p = true) :
    (l1 ++ l2).takeWhile p = l1 ++ l2.takeWhile p := by
  induction l1 with
  | nil => rfl
  | cons x xs ih =>
    simp only [List.all_cons, Bool.and_eq_true] at h
    rw [List.cons_append, List.takeWhile_cons_of_pos h.1, ih h.2, List.cons_append]

/-- The copy loop of `write_pass_fd` emits exactly the bytes of the source
before its first newline, independent of how the 40-byte reads cut it. -/
theorem wpfLoop_takeWhile (src : List Char) :
    wpfLoop src = src.takeWhile (fun b => b ≠ '\n') := by
  generalize hn : src.length = n
  induction n using Nat.strong_induction_on generalizing src with
  | _ n ih =>
    cases src with
    | nil => simp [wpfLoop]
    | cons x xs =>
      rw [wpfLoop]
      by_cases hall : ((x :: xs).take 40).all (fun b => b ≠ '\n') = true
      · rw [if_pos hall, takeWhile_take_all _ _ 40 hall]
        congr 1
        exact ih ((x :: xs).drop 40).length
          (by rw [← hn]; simp only [List.length_drop, List.length_cons]; omega)
          _ rfl
      · rw [if_neg hall, takeWhile_take_not_all _ _ 40 hall]

/-- Claim C5: `write_pass_fd` copies the first line of the source to the
destination — it stops at and discards the first newline (or stops at
end-of-input) and always appends exactly one terminating newline — so a
destination that accepts every byte observes exactly the newline-free
first line followed by a single newline, whether or not the source ended
with one. -/
theorem write_pass_fd_first_line (src : List Char) :
    write_pass_fd src = src.takeWhile (fun b => b ≠ '\n') ++ ['\n'] ∧
    (∀ line rest, line.all (fun b => b ≠ '\n') = true →
      write_pass_fd (line ++ '\n' :: rest) = line ++ ['\n'] ∧
      write_pass_fd line = line ++ ['\n']) := by
  constructor
  · unfold write_pass_fd
    rw [wpfLoop_takeWhile]
  · intro line rest hall
    constructor
    · unfold write_pass_fd
      rw [wpfLoop_takeWhile, takeWhile_all_append _ _ _ hall,
        List.takeWhile_cons_of_neg (by decide), List.append_nil]
    · unfold write_pass_fd
      rw [wpfLoop_takeWhile, takeWhile_all_self _ _ hall]

/-- Witness for C5: a two-line source delivers its first line plus exactly
one newline; a newline-free source gets a newline appended. -/
theorem write_pass_fd_first_line_witness :
    (("hunter2".toList).all (fun b => b ≠ '\n') = true ∧
      write_pass_fd ("hunter2".toList ++ '\n' :: "rest".toList) =
        "hunter2".toList ++ ['\n']) ∧
    write_pass_fd ("hunter2".toList) = "hunter2".toList ++ ['\n'] := by
  have h := (write_pass_fd_first_line ("hunter2".toList)).2
    ("hunter2".toList) ("rest".toList) (by decide)
  exact ⟨⟨by decide, h.1⟩, h.2⟩

/-! ### Lemmas about `parseLoop` for Claim C8 -/

theorem parseLoop_stuck (env : Option String) (a : Args) (e : Int) (he : e ≠ -1)
    (opts : List Opt) : parseLoop env a e opts = some (a, e) := by
  cases opts with
  | nil => rfl
  | cons o rest => simp [parseLoop, he]

theorem parseLoop_append (env : Option String) (a : Args) (e : Int) (xs ys : List Opt) :
    parseLoop env a e (xs ++ ys) =
      match parseLoop env a e xs with
      | none => none
      | some (a', e') => parseLoop env a' e' ys := by
  induction xs generalizing a e with
  | nil => rfl
  | cons o rest ih =>
    by_cases he : e = -1
    · subst he
      cases o <;> simp [parseLoop, ih]
    · rw [List.cons_append, parseLoop_stuck env a e he, parseLoop_stuck env a e he]
      exact (parseLoop_stuck env a e he ys).symm

/-- Claim C8 counterexample: the command line `-e -f x` (with `SSHPASS`
unset) specifies two password sources, yet the program exits with code 1
(invalid arguments, from the failed `-e`), not with the
conflicting-arguments code 2 — parsing stops at the first recorded error
before the second source option is examined. -/
theorem conflict_preempted_cex :
    numPwSources [Opt.optE, Opt.optF "x"] = 2 ∧
    mainModel none [Opt.optE, Opt.optF "x"] true =
      .exit ((RETURN_INVALID_ARGUMENTS : Nat) : Int) ∧
    mainModel none [Opt.optE, Opt.optF "x"] true ≠
      .exit ((RETURN_CONFLICTING_ARGUMENTS : Nat) : Int) := by
  refine ⟨rfl, by decide, by decide⟩

/-- Claim C8 (amended): if option parsing reaches a further
password-source option (`-f`, `-d`, `-p`, or `-e` with `SSHPASS` set)
while a non-default source is already selected and no earlier terminating
condition (`-h`, `-V`, an invalid option, or `-e` with `SSHPASS` unset)
has stopped the loop, it records the conflicting-password-source error and
the program exits with code 2 without ever reaching `runprogram` (so no
child process is spawned); an earlier terminating condition instead
preempts with its own exit code. -/
theorem conflict_exit_two (env : Option String) (pre : List Opt) (o : Opt)
    (rest : List Opt) (hasCmd : Bool) (a : Args)
    (hpre : parseLoop env argsInit (-1) pre = some (a, -1))
    (hpw : a.pwtype ≠ PwType.stdin)
    (ho : isFdpOpt o = true ∨ (o = Opt.optE ∧ env ≠ none)) :
    mainModel env (pre ++ o :: rest) hasCmd =
      .exit ((RETURN_CONFLICTING_ARGUMENTS : Nat) : Int) ∧
    ∀ a', mainModel env (pre ++ o :: rest) hasCmd ≠ .runs a' := by
  have hvirgin : virginPwtype a (-1) = ((RETURN_CONFLICTING_ARGUMENTS : Nat) : Int) := by
    unfold virginPwtype
    rw [if_pos hpw]
  have hstep : ∃ a', parseLoop env a (-1) (o :: rest) = some (a', 2) := by
    rcases ho with hf | ⟨heq, henv⟩
    · cases o with
      | optF s =>
        refine ⟨{ a with pwtype := .file, filename := s }, ?_⟩
        simp only [parseLoop, if_neg (by omega : ¬ (-1 : Int) ≠ -1)]
        rw [hvirgin]
        exact parseLoop_stuck env _ _ (by decide) rest
      | optD s =>
        refine ⟨{ a with pwtype := .fd, fdArg := s }, ?_⟩
        simp only [parseLoop, if_neg (by omega : ¬ (-1 : Int) ≠ -1)]
        rw [hvirgin]
        exact parseLoop_stuck env _ _ (by decide) rest
      | optP s =>
        refine ⟨{ a with pwtype := .pass, orig_password := some s }, ?_⟩
        simp only [parseLoop, if_neg (by omega : ¬ (-1 : Int) ≠ -1)]
        rw [hvirgin]
        exact parseLoop_stuck env _ _ (by decide) rest
      | optPrompt s => simp [isFdpOpt] at hf
      | optVerbose => simp [isFdpOpt] at hf
      | optE => simp [isFdpOpt] at hf
      | optH => simp [isFdpOpt] at hf
      | optVersion => simp [isFdpOpt] at hf
      | optBad => simp [isFdpOpt] at hf
    · subst heq
      refine ⟨{ a with pwtype := PwType.pass, orig_password := env }, ?_⟩
      simp only [parseLoop, if_neg (by omega : ¬ (-1 : Int) ≠ -1), if_neg henv]
      rw [hvirgin]
      exact parseLoop_stuck env _ _ (by decide) rest
  obtain ⟨a', ha'⟩ := hstep
  have hparse : parseLoop env argsInit (-1) (pre ++ o :: rest) = some (a', 2) := by
    rw [parseLoop_append, hpre]
    exact ha'
  constructor
  · unfold mainModel
    rw [hparse]
    simp only [if_pos (by omega : (0 : Int) ≤ 2)]
    rw [if_pos (by omega : (-(2 + 1) : Int) < 0)]
    rfl
  · intro a''
    unfold mainModel
    rw [hparse]
    simp only [if_pos (by omega : (0 : Int) ≤ 2)]
    rw [if_pos (by omega : (-(2 + 1) : Int) < 0)]
    simp

/-- Witness for C8 (amended): concrete command line `-d 5 -f pw`. -/
theorem conflict_exit_two_witness :
    parseLoop (some "secret") argsInit (-1) [Opt.optD "5"] =
      some ({ argsInit with pwtype := PwType.fd, fdArg := "5" }, -1) ∧
    mainModel (some "secret") ([Opt.optD "5"] ++ Opt.optF "pw" :: []) true =
      .exit ((RETURN_CONFLICTING_ARGUMENTS : Nat) : Int) := by
  have h := conflict_exit_two (some "secret") [Opt.optD "5"] (Opt.optF "pw") [] true
    { argsInit with pwtype := PwType.fd, fdArg := "5" }
    (by decide) (by decide) (Or.inl rfl)
  exact ⟨by decide, h.1⟩

end Sshpass
